import Mathlib

/-!
Shallow embedding of the themis photo-mosaic generator (`src/main.rs`).

The program loads a directory of tile images, resizes each to a fixed
square side, precomputes a representative color per tile (root mean
square of each channel over the resized buffer), reduces a target image
to its set of distinct pixel colors, matches every distinct color to the
tile whose representative color minimizes an integer-scaled redmean
distance (a rayon parallel `min_by_key` reduction), and blits the chosen
tiles into an output canvas.

Modelling conventions:
* `u8` channel values are natural numbers (bounds `≤ 255` appear as
  hypotheses where a claim needs them).
* `i64` arithmetic is exact `ℤ` arithmetic; all values reached by the
  program are far below `2 ^ 63`, which is proved where relevant.
  Rust's arithmetic shift `>> 8` on a non-negative `i64` is floor
  division by `256`, i.e. `Int` division (`Int.ediv`) by `256`.
* An image is a width, a height and a pixel function; `image.pixels()`
  enumerates coordinates left to right, top to bottom.
* The `f64` accumulation in `average_color` is modelled in exact
  arithmetic: the sums of squares involved are integers below `2 ^ 53`,
  division and `sqrt` are exact real operations, and the `as u8` cast
  truncates toward zero.  Rust casts `NaN` to `0`, which for the
  zero-pixel image coincides with the `Nat` convention `x / 0 = 0`.
* Fallible steps (`copy_from`, the `unwrap` on the color map, rayon's
  `reduce_with` on an empty sequence) return `Option`; a panic and a
  propagated `Err` are both modelled as `none`.
-/

/-- A color with four 8-bit channels (Rust `Rgba<u8>`). -/
structure Color where
  r : ℕ
  g : ℕ
  b : ℕ
  a : ℕ
deriving DecidableEq

/-- An image (Rust `DynamicImage`): dimensions plus a pixel lookup. -/
structure Img where
  width : ℕ
  height : ℕ
  pix : ℕ → ℕ → Color

/-- The coordinates enumerated by `image.pixels()`: row-major,
left to right, top to bottom. -/
def Img.pixelCoords (img : Img) : List (ℕ × ℕ) :=
  (List.range img.height).flatMap fun y => (List.range img.width).map fun x => (x, y)

/-- The pixel buffer of an image, in `image.pixels()` order. -/
def Img.pixelsList (img : Img) : List Color :=
  img.pixelCoords.map fun p => img.pix p.1 p.2

/-- Sum of squares of a list of channel values. -/
def sumSq (l : List ℕ) : ℕ := (l.map fun v => v * v).sum

/-- `average_color` from `main.rs`: per channel, the root mean square of
that channel over every pixel, truncated to `u8`.  The `f64` sum of
squares, the division by the pixel count and the square root are
modelled exactly; the truncating `as u8` cast of `√(s / n)` is
`Nat.sqrt (s / n)` with `Nat` floor division (valid because
`⌊√x⌋ = ⌊√⌊x⌋⌋` for real `x ≥ 0`), and Rust's `NaN → 0` cast for the
zero-pixel image coincides with `Nat`'s `s / 0 = 0`. -/
def average_color (img : Img) : Color :=
  let n := img.width * img.height
  { r := Nat.sqrt (sumSq (img.pixelsList.map Color.r) / n),
    g := Nat.sqrt (sumSq (img.pixelsList.map Color.g) / n),
    b := Nat.sqrt (sumSq (img.pixelsList.map Color.b) / n),
    a := Nat.sqrt (sumSq (img.pixelsList.map Color.a) / n) }

/-- `distance` from `main.rs`: integer-scaled redmean metric.
`(i64::from(r1) + i64::from(r2)) / 2` truncates, but the operands are
non-negative so it is floor division, as is `Int` division; `>> 8` on
the non-negative weighted squares is floor division by `256`. -/
def distance (c1 c2 : Color) : ℤ :=
  let rmean : ℤ := ((c1.r : ℤ) + (c2.r : ℤ)) / 2
  let r : ℤ := (c1.r : ℤ) - (c2.r : ℤ)
  let g : ℤ := (c1.g : ℤ) - (c2.g : ℤ)
  let b : ℤ := (c1.b : ℤ) - (c2.b : ℤ)
  ((512 + rmean) * r * r) / 256 + 4 * g * g + ((767 - rmean) * b * b) / 256

/-- rayon's `min_by_key` combiner on `(key, item)` pairs:
`match (a.0).cmp(&b.0) { Ordering::Greater => b, _ => a }` — the left
(earlier) operand is kept on ties. -/
def minCombine {α : Type} (a b : ℤ × α) : ℤ × α :=
  if b.1 < a.1 then b else a

/-- rayon's `reduce_with`: `None` on the empty sequence, otherwise the
items combined in sequence order. -/
def reduceWith {α : Type} (f : α → α → α) : List α → Option α
  | [] => none
  | x :: xs => some (xs.foldl f x)

/-- `pick_image_for_pixel` from `main.rs`: rayon
`min_by_key(|(_img, avg)| distance(*avg, pixel))` over the catalog,
modelled as the order-respecting reduction with `minCombine`
(rayon's parallel reduction combines only adjacent runs, in order). -/
def pick_image_for_pixel (pixel : Color) (tiles : List (Img × Color)) : Option Img :=
  (reduceWith minCombine (tiles.map fun t => (distance t.2 pixel, t))).map fun e => e.2.1

/-- A reduction tree: the shape in which rayon's work-stealing scheduler
splits a sequence.  Leaves, read left to right, are the sequence. -/
inductive RTree (α : Type) where
  | leaf : α → RTree α
  | node : RTree α → RTree α → RTree α

/-- Combine a reduction tree bottom-up (one worker per subtree). -/
def RTree.reduce {α : Type} (f : α → α → α) : RTree α → α
  | .leaf a => a
  | .node l r => f (l.reduce f) (r.reduce f)

/-- The sequence a reduction tree was split from. -/
def RTree.flatten {α : Type} : RTree α → List α
  | .leaf a => [a]
  | .node l r => l.flatten ++ r.flatten

/-- Map over a reduction tree. -/
def RTree.map {α β : Type} (f : α → β) : RTree α → RTree β
  | .leaf a => .leaf (f a)
  | .node l r => .node (l.map f) (r.map f)

/-- `pick_image_for_pixel` as executed under a given parallel split of
the catalog: map to `(distance, entry)`, reduce over the tree shape. -/
def pickPar (pixel : Color) (tr : RTree (Img × Color)) : Img :=
  ((tr.map fun t => (distance t.2 pixel, t)).reduce minCombine).2.1

/-- `load_images` from `main.rs`: for every directory entry, try to
decode (`image::open(..).ok()?`), resize to `tile_side × tile_side`
(`thumbnail_exact`), pair with the representative color; entries that
fail to decode are dropped by the `filter_map`.  The decode and resize
collaborators are out of scope (spec §1) and passed as parameters. -/
def load_images {ε : Type} (decode : ε → Option Img) (resize : Img → ℕ → Img)
    (tile_side : ℕ) (entries : List ε) : List (Img × Color) :=
  entries.filterMap fun e =>
    (decode e).map fun img0 =>
      let img := resize img0 tile_side
      (img, average_color img)

/-- Lookup in the color → tile `HashMap`, modelled as an association
list in hash-iteration order (keys are distinct colors, so at most one
entry per key exists and iteration order is irrelevant). -/
def lookupColor : List (Color × Img) → Color → Option Img
  | [], _ => none
  | (k, v) :: rest, c => if k = c then some v else lookupColor rest c

/-- The color → tile map built by `main.rs`:
`unique_pixels.filter_map(|pixel| Some((pixel, pick_image_for_pixel(pixel, ..)?)))`,
with `order` the `HashSet` iteration order of the distinct pixels. -/
def buildMapping (order : List Color) (tiles : List (Img × Color)) : List (Color × Img) :=
  order.filterMap fun c => (pick_image_for_pixel c tiles).map fun t => (c, t)

/-- `GenericImage::copy_from(&tile, ox, oy)` of the image crate: fails
when the tile does not fit inside the canvas at that offset, otherwise
overwrites the rectangle `[ox, ox+tile.width) × [oy, oy+tile.height)`
with the tile's pixels. -/
def copy_from (canvas tile : Img) (ox oy : ℕ) : Option Img :=
  if ox + tile.width ≤ canvas.width ∧ oy + tile.height ≤ canvas.height then
    some { width := canvas.width, height := canvas.height,
           pix := fun X Y =>
             if ox ≤ X ∧ X < ox + tile.width ∧ oy ≤ Y ∧ Y < oy + tile.height then
               tile.pix (X - ox) (Y - oy)
             else canvas.pix X Y }
  else none

/-- One iteration of the blit loop in `main.rs`:
`mosaic.copy_from(&**tiles.get(&pixel).unwrap(), x * tile_size, y * tile_size)?`.
The `unwrap` panic on a missing entry and a `copy_from` error are both
modelled as `none`. -/
def blitStep (img : Img) (mapping : List (Color × Img)) (s : ℕ)
    (canvas : Img) (p : ℕ × ℕ) : Option Img :=
  match lookupColor mapping (img.pix p.1 p.2) with
  | some tile => copy_from canvas tile (p.1 * s) (p.2 * s)
  | none => none

/-- The composition loop of `main.rs`: allocate
`DynamicImage::new_rgba8(img.width * tile_size, img.height * tile_size)`
(zero-initialized) and blit the matched tile for every source pixel. -/
def composePixels (img : Img) (mapping : List (Color × Img)) (s : ℕ) : Option Img :=
  img.pixelCoords.foldlM (blitStep img mapping s)
    { width := img.width * s, height := img.height * s,
      pix := fun _ _ => Color.mk 0 0 0 0 }

/-- The per-target-image pipeline of `main.rs` after the target resize:
distinct-pixel reduction (whose `HashSet` iteration order is `order`),
matching, composition. -/
def processImage (img : Img) (tiles : List (Img × Color)) (order : List Color)
    (s : ℕ) : Option Img :=
  composePixels img (buildMapping order tiles) s

/-- The same pipeline with the per-color parallel matching made
explicit: `sched c` is the reduction-tree shape rayon happens to use
when matching color `c` against the catalog. -/
def processImagePar (img : Img) (sched : Color → RTree (Img × Color))
    (order : List Color) (s : ℕ) : Option Img :=
  composePixels img (order.map fun c => (c, pickPar c (sched c))) s

/-! ## Arithmetic facts about `distance` -/

lemma rmean_nonneg (a b : Color) : 0 ≤ ((a.r : ℤ) + (b.r : ℤ)) / 2 := by
  omega

lemma rmean_le_255 (a b : Color) (ha : a.r ≤ 255) (hb : b.r ≤ 255) :
    ((a.r : ℤ) + (b.r : ℤ)) / 2 ≤ 255 := by
  omega

lemma one_le_sq_of_ne {x : ℤ} (hx : x ≠ 0) : 1 ≤ x * x := by
  rcases hx.lt_or_lt with h | h
  · nlinarith
  · nlinarith

/-- `distance` unfolded to its three addends. -/
lemma distance_eq (a b : Color) :
    distance a b =
      ((512 + ((a.r : ℤ) + (b.r : ℤ)) / 2) * ((a.r : ℤ) - b.r) * ((a.r : ℤ) - b.r)) / 256
        + 4 * ((a.g : ℤ) - b.g) * ((a.g : ℤ) - b.g)
        + ((767 - ((a.r : ℤ) + (b.r : ℤ)) / 2) * ((a.b : ℤ) - b.b) * ((a.b : ℤ) - b.b)) / 256 := by
  rfl

lemma distance_comm (a b : Color) : distance a b = distance b a := by
  rw [distance_eq, distance_eq]
  have h1 : ((b.r : ℤ) + a.r) = ((a.r : ℤ) + b.r) := by ring
  rw [h1]
  generalize ((a.r : ℤ) + (b.r : ℤ)) / 2 = m
  have e1 : (512 + m) * ((a.r : ℤ) - b.r) * ((a.r : ℤ) - b.r)
      = (512 + m) * ((b.r : ℤ) - a.r) * ((b.r : ℤ) - a.r) := by ring
  have e2 : (4 : ℤ) * ((a.g : ℤ) - b.g) * ((a.g : ℤ) - b.g)
      = 4 * ((b.g : ℤ) - a.g) * ((b.g : ℤ) - a.g) := by ring
  have e3 : (767 - m) * ((a.b : ℤ) - b.b) * ((a.b : ℤ) - b.b)
      = (767 - m) * ((b.b : ℤ) - a.b) * ((b.b : ℤ) - a.b) := by ring
  rw [e1, e2, e3]

lemma distance_term1_nonneg (a b : Color) :
    0 ≤ (512 + ((a.r : ℤ) + (b.r : ℤ)) / 2) * ((a.r : ℤ) - b.r) * ((a.r : ℤ) - b.r) := by
  have hm : 0 ≤ ((a.r : ℤ) + (b.r : ℤ)) / 2 := rmean_nonneg a b
  nlinarith [sq_nonneg ((a.r : ℤ) - b.r)]

lemma distance_term3_nonneg (a b : Color) (ha : a.r ≤ 255) (hb : b.r ≤ 255) :
    0 ≤ (767 - ((a.r : ℤ) + (b.r : ℤ)) / 2) * ((a.b : ℤ) - b.b) * ((a.b : ℤ) - b.b) := by
  have hm : ((a.r : ℤ) + (b.r : ℤ)) / 2 ≤ 255 := rmean_le_255 a b ha hb
  nlinarith [sq_nonneg ((a.b : ℤ) - b.b)]

lemma distance_nonneg (a b : Color) (ha : a.r ≤ 255) (hb : b.r ≤ 255) :
    0 ≤ distance a b := by
  rw [distance_eq]
  have d1 := Int.ediv_nonneg (distance_term1_nonneg a b) (by norm_num : (0:ℤ) ≤ 256)
  have d3 := Int.ediv_nonneg (distance_term3_nonneg a b ha hb) (by norm_num : (0:ℤ) ≤ 256)
  have d2 : 0 ≤ 4 * ((a.g : ℤ) - b.g) * ((a.g : ℤ) - b.g) := by
    nlinarith [sq_nonneg ((a.g : ℤ) - b.g)]
  linarith

lemma distance_zero_iff (a b : Color) (ha : a.r ≤ 255) (hb : b.r ≤ 255) :
    distance a b = 0 ↔ (a.r = b.r ∧ a.g = b.g ∧ a.b = b.b) := by
  rw [distance_eq]
  have hm0 : 0 ≤ ((a.r : ℤ) + (b.r : ℤ)) / 2 := rmean_nonneg a b
  have hm255 : ((a.r : ℤ) + (b.r : ℤ)) / 2 ≤ 255 := rmean_le_255 a b ha hb
  constructor
  · intro h
    have d1 := Int.ediv_nonneg (distance_term1_nonneg a b) (by norm_num : (0:ℤ) ≤ 256)
    have d3 := Int.ediv_nonneg (distance_term3_nonneg a b ha hb) (by norm_num : (0:ℤ) ≤ 256)
    have d2 : 0 ≤ 4 * ((a.g : ℤ) - b.g) * ((a.g : ℤ) - b.g) := by
      nlinarith [sq_nonneg ((a.g : ℤ) - b.g)]
    refine ⟨?_, ?_, ?_⟩
    · by_contra hne
      have hx : ((a.r : ℤ) - b.r) ≠ 0 := by
        intro hz
        exact hne (by omega)
      have hsq := one_le_sq_of_ne hx
      have hnum : (512 : ℤ)
          ≤ (512 + ((a.r : ℤ) + (b.r : ℤ)) / 2) * ((a.r : ℤ) - b.r) * ((a.r : ℤ) - b.r) := by
        nlinarith
      have h2 : (2 : ℤ)
          ≤ (512 + ((a.r : ℤ) + (b.r : ℤ)) / 2) * ((a.r : ℤ) - b.r) * ((a.r : ℤ) - b.r) / 256 := by
        have := Int.ediv_le_ediv (by norm_num : (0:ℤ) < 256) hnum
        simpa using this
      linarith
    · by_contra hne
      have hx : ((a.g : ℤ) - b.g) ≠ 0 := by
        intro hz
        exact hne (by omega)
      have hsq := one_le_sq_of_ne hx
      have h2 : (4 : ℤ) ≤ 4 * ((a.g : ℤ) - b.g) * ((a.g : ℤ) - b.g) := by nlinarith
      linarith
    · by_contra hne
      have hx : ((a.b : ℤ) - b.b) ≠ 0 := by
        intro hz
        exact hne (by omega)
      have hsq := one_le_sq_of_ne hx
      have hnum : (512 : ℤ)
          ≤ (767 - ((a.r : ℤ) + (b.r : ℤ)) / 2) * ((a.b : ℤ) - b.b) * ((a.b : ℤ) - b.b) := by
        nlinarith
      have h2 : (2 : ℤ)
          ≤ (767 - ((a.r : ℤ) + (b.r : ℤ)) / 2) * ((a.b : ℤ) - b.b) * ((a.b : ℤ) - b.b) / 256 := by
        have := Int.ediv_le_ediv (by norm_num : (0:ℤ) < 256) hnum
        simpa using this
      linarith
  · rintro ⟨h1, h2, h3⟩
    have e1 : ((a.r : ℤ) - b.r) = 0 := by omega
    have e2 : ((a.g : ℤ) - b.g) = 0 := by omega
    have e3 : ((a.b : ℤ) - b.b) = 0 := by omega
    rw [e1, e2, e3]
    simp

lemma floor_mul_div_256 (w d : ℤ) :
    ⌊((w : ℚ) * (d : ℚ) ^ 2) / 256⌋ = (w * d * d) / 256 := by
  have h : ((w : ℚ) * (d : ℚ) ^ 2) = ((w * d * d : ℤ) : ℚ) := by push_cast; ring
  rw [h, show (256 : ℚ) = ((256 : ℕ) : ℚ) from by norm_num,
    Rat.floor_intCast_div_natCast]
  norm_num

/-- The first redmean floor form of `distance`. -/
lemma distance_floor_form (a b : Color) :
    distance a b
      = ⌊((512 + ((((a.r : ℤ) + (b.r : ℤ)) / 2 : ℤ) : ℚ)) * ((a.r : ℚ) - (b.r : ℚ)) ^ 2) / 256⌋
        + 4 * ((a.g : ℤ) - (b.g : ℤ)) ^ 2
        + ⌊((767 - ((((a.r : ℤ) + (b.r : ℤ)) / 2 : ℤ) : ℚ)) * ((a.b : ℚ) - (b.b : ℚ)) ^ 2) / 256⌋ := by
  have e1 : ⌊((512 + ((((a.r : ℤ) + (b.r : ℤ)) / 2 : ℤ) : ℚ)) * ((a.r : ℚ) - (b.r : ℚ)) ^ 2) / 256⌋
      = ((512 + ((a.r : ℤ) + (b.r : ℤ)) / 2) * ((a.r : ℤ) - b.r) * ((a.r : ℤ) - b.r)) / 256 := by
    have h := floor_mul_div_256 (512 + ((a.r : ℤ) + (b.r : ℤ)) / 2) ((a.r : ℤ) - b.r)
    have harg : (((512 + ((a.r : ℤ) + (b.r : ℤ)) / 2 : ℤ) : ℚ) * (((a.r : ℤ) - b.r : ℤ) : ℚ) ^ 2)
        = ((512 + ((((a.r : ℤ) + (b.r : ℤ)) / 2 : ℤ) : ℚ)) * ((a.r : ℚ) - (b.r : ℚ)) ^ 2) := by
      push_cast
      ring
    rw [harg] at h
    exact h
  have e3 : ⌊((767 - ((((a.r : ℤ) + (b.r : ℤ)) / 2 : ℤ) : ℚ)) * ((a.b : ℚ) - (b.b : ℚ)) ^ 2) / 256⌋
      = ((767 - ((a.r : ℤ) + (b.r : ℤ)) / 2) * ((a.b : ℤ) - b.b) * ((a.b : ℤ) - b.b)) / 256 := by
    have h := floor_mul_div_256 (767 - ((a.r : ℤ) + (b.r : ℤ)) / 2) ((a.b : ℤ) - b.b)
    have harg : (((767 - ((a.r : ℤ) + (b.r : ℤ)) / 2 : ℤ) : ℚ) * (((a.b : ℤ) - b.b : ℤ) : ℚ) ^ 2)
        = ((767 - ((((a.r : ℤ) + (b.r : ℤ)) / 2 : ℤ) : ℚ)) * ((a.b : ℚ) - (b.b : ℚ)) ^ 2) := by
      push_cast
      ring
    rw [harg] at h
    exact h
  have e2 : 4 * ((a.g : ℤ) - (b.g : ℤ)) ^ 2 = 4 * ((a.g : ℤ) - b.g) * ((a.g : ℤ) - b.g) := by
    ring
  rw [e1, e3, e2, distance_eq]

/-- The squared channel differences are bounded by `255²`. -/
lemma sq_diff_le (x y : ℕ) (hx : x ≤ 255) (hy : y ≤ 255) :
    ((x : ℤ) - y) * ((x : ℤ) - y) ≤ 65025 := by
  have h1 : ((x : ℤ) - y) ≤ 255 := by omega
  have h2 : (-255 : ℤ) ≤ ((x : ℤ) - y) := by omega
  nlinarith

/-- `distance` stays far below `2 ^ 63`: the `i64` arithmetic never overflows. -/
lemma distance_lt_two_pow (a b : Color) (har : a.r ≤ 255) (hbr : b.r ≤ 255)
    (hag : a.g ≤ 255) (hbg : b.g ≤ 255) (hab : a.b ≤ 255) (hbb : b.b ≤ 255) :
    distance a b < 2 ^ 63 := by
  rw [distance_eq]
  have hm0 : 0 ≤ ((a.r : ℤ) + (b.r : ℤ)) / 2 := rmean_nonneg a b
  have hm255 : ((a.r : ℤ) + (b.r : ℤ)) / 2 ≤ 255 := rmean_le_255 a b har hbr
  have hsqr := sq_diff_le a.r b.r har hbr
  have hsqg := sq_diff_le a.g b.g hag hbg
  have hsqb := sq_diff_le a.b b.b hab hbb
  have ht1 : (512 + ((a.r : ℤ) + (b.r : ℤ)) / 2) * ((a.r : ℤ) - b.r) * ((a.r : ℤ) - b.r)
      ≤ 767 * 65025 := by
    have h1 : (512 + ((a.r : ℤ) + (b.r : ℤ)) / 2) ≤ 767 := by linarith
    calc (512 + ((a.r : ℤ) + (b.r : ℤ)) / 2) * ((a.r : ℤ) - b.r) * ((a.r : ℤ) - b.r)
        = (512 + ((a.r : ℤ) + (b.r : ℤ)) / 2) * (((a.r : ℤ) - b.r) * ((a.r : ℤ) - b.r)) := by
          ring
      _ ≤ 767 * 65025 := mul_le_mul h1 hsqr (mul_self_nonneg _) (by norm_num)
  have ht3 : (767 - ((a.r : ℤ) + (b.r : ℤ)) / 2) * ((a.b : ℤ) - b.b) * ((a.b : ℤ) - b.b)
      ≤ 767 * 65025 := by
    have h1 : (767 - ((a.r : ℤ) + (b.r : ℤ)) / 2) ≤ 767 := by linarith
    calc (767 - ((a.r : ℤ) + (b.r : ℤ)) / 2) * ((a.b : ℤ) - b.b) * ((a.b : ℤ) - b.b)
        = (767 - ((a.r : ℤ) + (b.r : ℤ)) / 2) * (((a.b : ℤ) - b.b) * ((a.b : ℤ) - b.b)) := by
          ring
      _ ≤ 767 * 65025 := mul_le_mul h1 hsqb (mul_self_nonneg _) (by norm_num)
  have ht2 : 4 * ((a.g : ℤ) - b.g) * ((a.g : ℤ) - b.g) ≤ 4 * 65025 := by
    calc (4 : ℤ) * ((a.g : ℤ) - b.g) * ((a.g : ℤ) - b.g)
        = 4 * (((a.g : ℤ) - b.g) * ((a.g : ℤ) - b.g)) := by ring
      _ ≤ 4 * 65025 := mul_le_mul_of_nonneg_left hsqg (by norm_num)
  have hd1 := Int.ediv_le_self 256 (distance_term1_nonneg a b)
  have hd3 := Int.ediv_le_self 256 (distance_term3_nonneg a b har hbr)
  have h63 : (2 : ℤ) ^ 63 = 9223372036854775808 := by norm_num
  rw [h63]
  linarith

/-- C4: `distance` computes the integer-scaled redmean score: with
`rmean = (r1 + r2) / 2` rounded down, the result is
`⌊((512 + rmean)·ΔR²)/256⌋ + 4·ΔG² + ⌊((767 − rmean)·ΔB²)/256⌋`, which
is the spec formula `(2 + rmean/256)·ΔR² + 4·ΔG² + (2 + (255 − rmean)/256)·ΔB²`
with each weighted term floored; the value is non-negative and far below
`2^63`, so the `i64` arithmetic is exact (no overflow). -/
theorem distance_redmean_formula (a b : Color) (har : a.r ≤ 255) (hbr : b.r ≤ 255)
    (hag : a.g ≤ 255) (hbg : b.g ≤ 255) (hab : a.b ≤ 255) (hbb : b.b ≤ 255) :
    distance a b
        = ⌊((512 + ((((a.r : ℤ) + (b.r : ℤ)) / 2 : ℤ) : ℚ)) * ((a.r : ℚ) - (b.r : ℚ)) ^ 2) / 256⌋
          + 4 * ((a.g : ℤ) - (b.g : ℤ)) ^ 2
          + ⌊((767 - ((((a.r : ℤ) + (b.r : ℤ)) / 2 : ℤ) : ℚ)) * ((a.b : ℚ) - (b.b : ℚ)) ^ 2) / 256⌋
      ∧ distance a b
        = ⌊(2 + ((((a.r : ℤ) + (b.r : ℤ)) / 2 : ℤ) : ℚ) / 256) * ((a.r : ℚ) - (b.r : ℚ)) ^ 2⌋
          + 4 * ((a.g : ℤ) - (b.g : ℤ)) ^ 2
          + ⌊(2 + (255 - ((((a.r : ℤ) + (b.r : ℤ)) / 2 : ℤ) : ℚ)) / 256) * ((a.b : ℚ) - (b.b : ℚ)) ^ 2⌋
      ∧ 0 ≤ distance a b ∧ distance a b < 2 ^ 63 := by
  refine ⟨distance_floor_form a b, ?_,
    distance_nonneg a b har hbr, distance_lt_two_pow a b har hbr hag hbg hab hbb⟩
  have q1 : (2 + ((((a.r : ℤ) + (b.r : ℤ)) / 2 : ℤ) : ℚ) / 256) * ((a.r : ℚ) - (b.r : ℚ)) ^ 2
      = ((512 + ((((a.r : ℤ) + (b.r : ℤ)) / 2 : ℤ) : ℚ)) * ((a.r : ℚ) - (b.r : ℚ)) ^ 2) / 256 := by
    ring
  have q3 : (2 + (255 - ((((a.r : ℤ) + (b.r : ℤ)) / 2 : ℤ) : ℚ)) / 256) * ((a.b : ℚ) - (b.b : ℚ)) ^ 2
      = ((767 - ((((a.r : ℤ) + (b.r : ℤ)) / 2 : ℤ) : ℚ)) * ((a.b : ℚ) - (b.b : ℚ)) ^ 2) / 256 := by
    ring
  rw [q1, q3]
  exact distance_floor_form a b

/-- Witness for C4 at concrete colors. -/
theorem distance_redmean_formula_witness :
    distance (Color.mk 10 200 30 7) (Color.mk 90 20 255 99)
        = ⌊((512 + ((((Color.mk 10 200 30 7).r : ℤ) + ((Color.mk 90 20 255 99).r : ℤ)) / 2 : ℤ) : ℚ) * (((Color.mk 10 200 30 7).r : ℚ) - ((Color.mk 90 20 255 99).r : ℚ)) ^ 2) / 256⌋
          + 4 * (((Color.mk 10 200 30 7).g : ℤ) - ((Color.mk 90 20 255 99).g : ℤ)) ^ 2
          + ⌊((767 - ((((Color.mk 10 200 30 7).r : ℤ) + ((Color.mk 90 20 255 99).r : ℤ)) / 2 : ℤ) : ℚ) * (((Color.mk 10 200 30 7).b : ℚ) - ((Color.mk 90 20 255 99).b : ℚ)) ^ 2) / 256⌋
      ∧ distance (Color.mk 10 200 30 7) (Color.mk 90 20 255 99)
        = ⌊(2 + (((((Color.mk 10 200 30 7).r : ℤ) + ((Color.mk 90 20 255 99).r : ℤ)) / 2 : ℤ) : ℚ) / 256) * (((Color.mk 10 200 30 7).r : ℚ) - ((Color.mk 90 20 255 99).r : ℚ)) ^ 2⌋
          + 4 * (((Color.mk 10 200 30 7).g : ℤ) - ((Color.mk 90 20 255 99).g : ℤ)) ^ 2
          + ⌊(2 + (255 - (((((Color.mk 10 200 30 7).r : ℤ) + ((Color.mk 90 20 255 99).r : ℤ)) / 2 : ℤ) : ℚ)) / 256) * (((Color.mk 10 200 30 7).b : ℚ) - ((Color.mk 90 20 255 99).b : ℚ)) ^ 2⌋
      ∧ 0 ≤ distance (Color.mk 10 200 30 7) (Color.mk 90 20 255 99)
      ∧ distance (Color.mk 10 200 30 7) (Color.mk 90 20 255 99) < 2 ^ 63 :=
  distance_redmean_formula (Color.mk 10 200 30 7) (Color.mk 90 20 255 99)
    (by decide) (by decide) (by decide) (by decide) (by decide) (by decide)

/-- C5 counterexample: `distance` ignores the alpha channel, so it is
zero on two colors whose channels are not all equal. -/
theorem distance_zero_alpha_cex :
    distance (Color.mk 0 0 0 0) (Color.mk 0 0 0 255) = 0
    ∧ Color.mk 0 0 0 0 ≠ Color.mk 0 0 0 255 :=
  ⟨by decide, by decide⟩

/-- C5 (amended): `distance` is total (it is a Lean function), symmetric
and non-negative, and it is zero exactly when the red, green and blue
channels agree — the alpha channel is ignored. -/
theorem distance_total_sym_nonneg_zero (a b : Color) (har : a.r ≤ 255) (hbr : b.r ≤ 255) :
    distance a b = distance b a ∧ 0 ≤ distance a b
    ∧ (distance a b = 0 ↔ (a.r = b.r ∧ a.g = b.g ∧ a.b = b.b)) :=
  ⟨distance_comm a b, distance_nonneg a b har hbr, distance_zero_iff a b har hbr⟩

/-- Witness for C5's amended theorem at concrete colors. -/
theorem distance_total_sym_nonneg_zero_witness :
    distance (Color.mk 10 20 30 40) (Color.mk 10 20 30 50)
        = distance (Color.mk 10 20 30 50) (Color.mk 10 20 30 40)
    ∧ 0 ≤ distance (Color.mk 10 20 30 40) (Color.mk 10 20 30 50)
    ∧ (distance (Color.mk 10 20 30 40) (Color.mk 10 20 30 50) = 0
        ↔ ((Color.mk 10 20 30 40).r = (Color.mk 10 20 30 50).r
            ∧ (Color.mk 10 20 30 40).g = (Color.mk 10 20 30 50).g
            ∧ (Color.mk 10 20 30 40).b = (Color.mk 10 20 30 50).b)) :=
  distance_total_sym_nonneg_zero (Color.mk 10 20 30 40) (Color.mk 10 20 30 50)
    (by decide) (by decide)

/-- C10: `average_color` is total, and on an image with zero pixels
(zero width or zero height) it returns `(0, 0, 0, 0)`: in the Rust code
the unguarded `sum / pixel_count` is `0.0 / 0.0 = NaN`, `NaN.sqrt()` is
`NaN`, and `NaN as u8` is `0`; the embedding reaches the same value
through `Nat`'s `x / 0 = 0`. -/
theorem average_color_empty_image (img : Img)
    (h : img.width = 0 ∨ img.height = 0) :
    average_color img = Color.mk 0 0 0 0 := by
  have hn : img.width * img.height = 0 := by
    rcases h with h | h <;> simp [h]
  simp [average_color, hn]

/-- Witness for C10 on a concrete zero-width image. -/
theorem average_color_empty_image_witness :
    ((Img.mk 0 3 fun _ _ => Color.mk 9 9 9 9).width = 0
      ∨ (Img.mk 0 3 fun _ _ => Color.mk 9 9 9 9).height = 0)
    ∧ average_color (Img.mk 0 3 fun _ _ => Color.mk 9 9 9 9) = Color.mk 0 0 0 0 :=
  ⟨Or.inl rfl, average_color_empty_image (Img.mk 0 3 fun _ _ => Color.mk 9 9 9 9) (Or.inl rfl)⟩

/-! ## Root-mean-square representative color (C3) -/

/-- Truncating the real square root of `s / n` to an integer equals
`Nat.sqrt` of the floor quotient: `⌊√(s/n)⌋ = Nat.sqrt (s / n)`. -/
lemma nat_floor_sqrt_div (s n : ℕ) (hn : 0 < n) :
    ⌊Real.sqrt ((s : ℝ) / (n : ℝ))⌋₊ = Nat.sqrt (s / n) := by
  have hn' : (0 : ℝ) < (n : ℝ) := by exact_mod_cast hn
  rw [Nat.floor_eq_iff (Real.sqrt_nonneg _)]
  constructor
  · apply Real.le_sqrt_of_sq_le
    have h1 : (Nat.sqrt (s / n)) ^ 2 ≤ s / n := Nat.sqrt_le' (s / n)
    have h2 : ((s / n : ℕ) : ℝ) ≤ (s : ℝ) / n := by
      rw [le_div_iff₀ hn']
      exact_mod_cast Nat.div_mul_le_self s n
    calc ((Nat.sqrt (s / n) : ℝ)) ^ 2 = ((Nat.sqrt (s / n) ^ 2 : ℕ) : ℝ) := by push_cast; ring
      _ ≤ ((s / n : ℕ) : ℝ) := by exact_mod_cast h1
      _ ≤ (s : ℝ) / n := h2
  · rw [Real.sqrt_lt' (by positivity)]
    have hnat : s < (s / n + 1) * n := by
      calc s = n * (s / n) + s % n := (Nat.div_add_mod s n).symm
        _ < n * (s / n) + n := Nat.add_lt_add_left (Nat.mod_lt s hn) _
        _ = (s / n + 1) * n := by ring
    have h2 : (s : ℝ) / n < ((s / n : ℕ) : ℝ) + 1 := by
      rw [div_lt_iff₀ hn']
      exact_mod_cast hnat
    have h1 : s / n + 1 ≤ (Nat.sqrt (s / n) + 1) ^ 2 := Nat.lt_succ_sqrt' (s / n)
    have h3 : ((s / n : ℕ) : ℝ) + 1 ≤ ((Nat.sqrt (s / n) : ℝ) + 1) ^ 2 := by
      exact_mod_cast h1
    linarith

/-- C3 counterexample: the stored representative channel is the
*truncation* of the root mean square, not the root mean square itself.
For a 2 × 2 tile with red channels `0, 0, 0, 1` the red RMS is
`√(1/4) = 1/2`, but the stored channel is `0`. -/
theorem average_color_not_exact_rms :
    ((average_color (Img.mk 2 2 fun x y => Color.mk (x * y) 0 0 0)).r : ℝ)
      ≠ Real.sqrt
          ((sumSq ((Img.mk 2 2 fun x y => Color.mk (x * y) 0 0 0).pixelsList.map Color.r) : ℝ)
            / (((Img.mk 2 2 fun x y => Color.mk (x * y) 0 0 0).width
                * (Img.mk 2 2 fun x y => Color.mk (x * y) 0 0 0).height : ℕ) : ℝ)) := by
  have hL : (average_color (Img.mk 2 2 fun x y => Color.mk (x * y) 0 0 0)).r = 0 := by decide
  have hsum : sumSq ((Img.mk 2 2 fun x y => Color.mk (x * y) 0 0 0).pixelsList.map Color.r)
      = 1 := by decide
  have hwh : ((Img.mk 2 2 fun x y => Color.mk (x * y) 0 0 0).width
      * (Img.mk 2 2 fun x y => Color.mk (x * y) 0 0 0).height : ℕ) = 4 := by decide
  rw [hL, hsum, hwh]
  have hpos : (0 : ℝ) < Real.sqrt (((1 : ℕ) : ℝ) / ((4 : ℕ) : ℝ)) :=
    Real.sqrt_pos.mpr (by norm_num)
  simpa using ne_of_lt hpos

/-- C3 (amended): each channel of the representative color equals the
root mean square of that channel over every pixel of the (post-resize)
buffer, truncated to an integer (`u8` cast): channel `= ⌊√(Σc²/N)⌋`. -/
theorem average_color_channels_rms (img : Img) (hn : 0 < img.width * img.height) :
    (average_color img).r
        = ⌊Real.sqrt ((sumSq (img.pixelsList.map Color.r) : ℝ)
            / ((img.width * img.height : ℕ) : ℝ))⌋₊
    ∧ (average_color img).g
        = ⌊Real.sqrt ((sumSq (img.pixelsList.map Color.g) : ℝ)
            / ((img.width * img.height : ℕ) : ℝ))⌋₊
    ∧ (average_color img).b
        = ⌊Real.sqrt ((sumSq (img.pixelsList.map Color.b) : ℝ)
            / ((img.width * img.height : ℕ) : ℝ))⌋₊
    ∧ (average_color img).a
        = ⌊Real.sqrt ((sumSq (img.pixelsList.map Color.a) : ℝ)
            / ((img.width * img.height : ℕ) : ℝ))⌋₊ :=
  ⟨(nat_floor_sqrt_div (sumSq (img.pixelsList.map Color.r)) (img.width * img.height) hn).symm,
   (nat_floor_sqrt_div (sumSq (img.pixelsList.map Color.g)) (img.width * img.height) hn).symm,
   (nat_floor_sqrt_div (sumSq (img.pixelsList.map Color.b)) (img.width * img.height) hn).symm,
   (nat_floor_sqrt_div (sumSq (img.pixelsList.map Color.a)) (img.width * img.height) hn).symm⟩

/-- Witness for C3's amended theorem on a concrete 1 × 1 image. -/
theorem average_color_channels_rms_witness :
    (average_color (Img.mk 1 1 fun _ _ => Color.mk 4 9 16 25)).r
        = ⌊Real.sqrt ((sumSq ((Img.mk 1 1 fun _ _ => Color.mk 4 9 16 25).pixelsList.map Color.r) : ℝ)
            / (((Img.mk 1 1 fun _ _ => Color.mk 4 9 16 25).width
                * (Img.mk 1 1 fun _ _ => Color.mk 4 9 16 25).height : ℕ) : ℝ))⌋₊
    ∧ (average_color (Img.mk 1 1 fun _ _ => Color.mk 4 9 16 25)).g
        = ⌊Real.sqrt ((sumSq ((Img.mk 1 1 fun _ _ => Color.mk 4 9 16 25).pixelsList.map Color.g) : ℝ)
            / (((Img.mk 1 1 fun _ _ => Color.mk 4 9 16 25).width
                * (Img.mk 1 1 fun _ _ => Color.mk 4 9 16 25).height : ℕ) : ℝ))⌋₊
    ∧ (average_color (Img.mk 1 1 fun _ _ => Color.mk 4 9 16 25)).b
        = ⌊Real.sqrt ((sumSq ((Img.mk 1 1 fun _ _ => Color.mk 4 9 16 25).pixelsList.map Color.b) : ℝ)
            / (((Img.mk 1 1 fun _ _ => Color.mk 4 9 16 25).width
                * (Img.mk 1 1 fun _ _ => Color.mk 4 9 16 25).height : ℕ) : ℝ))⌋₊
    ∧ (average_color (Img.mk 1 1 fun _ _ => Color.mk 4 9 16 25)).a
        = ⌊Real.sqrt ((sumSq ((Img.mk 1 1 fun _ _ => Color.mk 4 9 16 25).pixelsList.map Color.a) : ℝ)
            / (((Img.mk 1 1 fun _ _ => Color.mk 4 9 16 25).width
                * (Img.mk 1 1 fun _ _ => Color.mk 4 9 16 25).height : ℕ) : ℝ))⌋₊ :=
  average_color_channels_rms (Img.mk 1 1 fun _ _ => Color.mk 4 9 16 25) (by decide)

/-! ## The parallel min-reduction (C1) -/

/-- `minCombine` is associative, so rayon's order-respecting parallel
reduction computes the same value as a sequential left fold. -/
lemma minCombine_assoc {α : Type} (a b c : ℤ × α) :
    minCombine (minCombine a b) c = minCombine a (minCombine b c) := by
  unfold minCombine
  split_ifs <;> first | rfl | (exfalso; omega)

lemma foldl_assoc {α : Type} {f : α → α → α}
    (hf : ∀ a b c, f (f a b) c = f a (f b c)) (a b : α) (l : List α) :
    l.foldl f (f a b) = f a (l.foldl f b) := by
  induction l generalizing b with
  | nil => rfl
  | cons c l ih =>
    show l.foldl f (f (f a b) c) = f a ((c :: l).foldl f b)
    rw [hf a b c]
    exact ih (f b c)

lemma RTree.flatten_ne_nil {α : Type} (tr : RTree α) : tr.flatten ≠ [] := by
  induction tr with
  | leaf a => simp [RTree.flatten]
  | node l r ihl ihr => simp [RTree.flatten, ihl]

lemma RTree.flatten_map {α β : Type} (f : α → β) (tr : RTree α) :
    (tr.map f).flatten = tr.flatten.map f := by
  induction tr with
  | leaf a => rfl
  | node l r ihl ihr => simp [RTree.flatten, RTree.map, ihl, ihr]

/-- A tree reduction with an associative combiner equals the sequential
left fold over the flattened sequence. -/
lemma RTree.reduce_eq_foldl {α : Type} {f : α → α → α}
    (hf : ∀ a b c, f (f a b) c = f a (f b c)) :
    ∀ (tr : RTree α) (x : α) (xs : List α),
      tr.flatten = x :: xs → tr.reduce f = xs.foldl f x := by
  intro tr
  induction tr with
  | leaf a =>
    intro x xs h
    simp only [RTree.flatten, List.cons.injEq] at h
    obtain ⟨h1, h2⟩ := h
    subst h1
    subst h2
    rfl
  | node l r ihl ihr =>
    intro x xs h
    obtain ⟨a, as, hfl⟩ := List.exists_cons_of_ne_nil (RTree.flatten_ne_nil l)
    obtain ⟨b, bs, hfr⟩ := List.exists_cons_of_ne_nil (RTree.flatten_ne_nil r)
    rw [RTree.flatten, hfl, hfr] at h
    simp only [List.cons_append, List.cons.injEq] at h
    obtain ⟨h1, h2⟩ := h
    subst h1
    subst h2
    show f (l.reduce f) (r.reduce f) = (as ++ b :: bs).foldl f a
    rw [ihl a as hfl, ihr b bs hfr, List.foldl_append]
    show f ((as.foldl f a)) ((bs.foldl f b)) = bs.foldl f (f (as.foldl f a) b)
    rw [foldl_assoc hf]

/-- The left fold with `minCombine` returns the element at the first
index attaining the minimal key. -/
lemma foldl_minCombine_firstMin {α : Type} (xs : List (ℤ × α)) :
    ∀ x : ℤ × α,
    ∃ i, ∃ hi : i < (x :: xs).length,
      xs.foldl minCombine x = (x :: xs).get ⟨i, hi⟩
      ∧ (∀ j, ∀ hj : j < (x :: xs).length,
          ((x :: xs).get ⟨i, hi⟩).1 ≤ ((x :: xs).get ⟨j, hj⟩).1)
      ∧ (∀ j, ∀ hj : j < i,
          ((x :: xs).get ⟨i, hi⟩).1 < ((x :: xs).get ⟨j, hj.trans hi⟩).1) := by
  induction xs with
  | nil =>
    intro x
    refine ⟨0, Nat.zero_lt_one, rfl, ?_, ?_⟩
    · intro j hj
      have hj0 : j = 0 := by
        simp only [List.length_cons, List.length_nil] at hj
        omega
      subst hj0
      exact le_refl _
    · intro j hj
      exact absurd hj (Nat.not_lt_zero j)
  | cons y ys ih =>
    intro x
    obtain ⟨i', hi', heq, hmin, hstrict⟩ := ih (minCombine x y)
    have hfold : (y :: ys).foldl minCombine x = ys.foldl minCombine (minCombine x y) := rfl
    by_cases hxy : y.1 < x.1
    · have hz : minCombine x y = y := if_pos hxy
      rw [hz] at heq hmin hstrict
      cases i' with
      | zero =>
        refine ⟨1, by simp only [List.length_cons]; omega, ?_, ?_, ?_⟩
        · rw [hfold, hz]
          exact heq
        · rintro (_ | (_ | m)) hj
          · exact le_of_lt hxy
          · exact le_refl _
          · exact hmin (m + 1) (by simp only [List.length_cons] at hj ⊢; omega)
        · rintro (_ | j) hj
          · exact hxy
          · exact absurd hj (by omega)
      | succ k =>
        refine ⟨k + 2, by simp only [List.length_cons] at hi' ⊢; omega, ?_, ?_, ?_⟩
        · rw [hfold, hz]
          exact heq
        · rintro (_ | (_ | m)) hj
          · exact le_trans (hmin 0 (by simp only [List.length_cons]; omega)) (le_of_lt hxy)
          · exact hmin 0 (by simp only [List.length_cons]; omega)
          · exact hmin (m + 1) (by simp only [List.length_cons] at hj ⊢; omega)
        · rintro (_ | (_ | m)) hj
          · exact lt_trans (hstrict 0 (by omega)) hxy
          · exact hstrict 0 (by omega)
          · exact hstrict (m + 1) (by omega)
    · have hz : minCombine x y = x := if_neg hxy
      rw [hz] at heq hmin hstrict
      cases i' with
      | zero =>
        refine ⟨0, by simp only [List.length_cons]; omega, ?_, ?_, ?_⟩
        · rw [hfold, hz]
          exact heq
        · rintro (_ | (_ | m)) hj
          · exact le_refl _
          · exact le_of_not_lt hxy
          · exact hmin (m + 1) (by simp only [List.length_cons] at hj ⊢; omega)
        · rintro j hj
          exact absurd hj (Nat.not_lt_zero j)
      | succ k =>
        refine ⟨k + 2, by simp only [List.length_cons] at hi' ⊢; omega, ?_, ?_, ?_⟩
        · rw [hfold, hz]
          exact heq
        · rintro (_ | (_ | m)) hj
          · exact hmin 0 (by simp only [List.length_cons]; omega)
          · exact le_trans (hmin 0 (by simp only [List.length_cons]; omega)) (le_of_not_lt hxy)
          · exact hmin (m + 1) (by simp only [List.length_cons] at hj ⊢; omega)
        · rintro (_ | (_ | m)) hj
          · exact hstrict 0 (by omega)
          · exact lt_of_lt_of_le (hstrict 0 (by omega)) (le_of_not_lt hxy)
          · exact hstrict (m + 1) (by omega)

lemma pick_eq_of_cons (pixel : Color) (t : Img × Color) (ts : List (Img × Color)) :
    pick_image_for_pixel pixel (t :: ts)
      = some (((ts.map fun e => (distance e.2 pixel, e)).foldl minCombine
          (distance t.2 pixel, t)).2.1) := rfl

lemma get_cons_map_key {α : Type} (g : α → ℤ) (t : α) (ts : List α)
    (j : ℕ) (hj : j < (t :: ts).length)
    (hj' : j < ((g t, t) :: ts.map fun e => (g e, e)).length) :
    ((g t, t) :: ts.map fun e => (g e, e)).get ⟨j, hj'⟩
      = (g ((t :: ts).get ⟨j, hj⟩), (t :: ts).get ⟨j, hj⟩) := by
  rcases j with _ | m
  · rfl
  · simp only [List.get_eq_getElem, List.getElem_cons_succ, List.getElem_map]

/-- The sequential fold of the keyed min-reduction returns the entry at
the first index minimizing the key. -/
lemma foldl_minCombine_key_firstMin {α : Type} (g : α → ℤ) (ts : List α) (t : α) :
    ∃ i, ∃ hi : i < (t :: ts).length,
      (ts.map fun e => (g e, e)).foldl minCombine (g t, t)
          = (g ((t :: ts).get ⟨i, hi⟩), (t :: ts).get ⟨i, hi⟩)
      ∧ (∀ j, ∀ hj : j < (t :: ts).length,
          g ((t :: ts).get ⟨i, hi⟩) ≤ g ((t :: ts).get ⟨j, hj⟩))
      ∧ (∀ j, ∀ hj : j < i,
          g ((t :: ts).get ⟨i, hi⟩) < g ((t :: ts).get ⟨j, hj.trans hi⟩)) := by
  obtain ⟨i, hip, heq, hmin, hstrict⟩ :=
    foldl_minCombine_firstMin (ts.map fun e => (g e, e)) (g t, t)
  have hi : i < (t :: ts).length := by simpa using hip
  refine ⟨i, hi, ?_, ?_, ?_⟩
  · rw [heq, get_cons_map_key g t ts i hi hip]
  · intro j hj
    have h := hmin j (by simpa using hj)
    rw [get_cons_map_key g t ts i hi hip,
      get_cons_map_key g t ts j hj (by simpa using hj)] at h
    exact h
  · intro j hj
    have h := hstrict j hj
    rw [get_cons_map_key g t ts i hi hip,
      get_cons_map_key g t ts j (hj.trans hi) (hj.trans hip)] at h
    exact h

/-- A tree reduction of the keyed entries equals the sequential fold. -/
lemma tree_reduce_key {α : Type} (g : α → ℤ) (tr : RTree α) (t : α) (ts : List α)
    (hft : tr.flatten = t :: ts) :
    (tr.map fun e => (g e, e)).reduce minCombine
      = (ts.map fun e => (g e, e)).foldl minCombine (g t, t) := by
  have hmapflat : (tr.map fun e => (g e, e)).flatten = (g t, t) :: ts.map fun e => (g e, e) := by
    rw [RTree.flatten_map, hft]
    rfl
  exact RTree.reduce_eq_foldl minCombine_assoc _ _ _ hmapflat

/-- Any parallel split of a non-empty catalog reduces to the same tile
as the sequential scan: the combiner is associative and rayon only
combines adjacent runs in order. -/
lemma pickPar_eq_pick (pixel : Color) (tr : RTree (Img × Color)) :
    some (pickPar pixel tr) = pick_image_for_pixel pixel tr.flatten := by
  obtain ⟨t, ts, hft⟩ := List.exists_cons_of_ne_nil (RTree.flatten_ne_nil tr)
  have h := tree_reduce_key (fun e => distance e.2 pixel) tr t ts hft
  rw [hft, pick_eq_of_cons]
  unfold pickPar
  rw [h]

/-- C1: for a non-empty catalog, `pick_image_for_pixel` returns the
image of a catalog entry whose representative color minimizes the
distance to the pixel; among all minimizers it is the one with the
earliest index; and every parallel reduction shape over the catalog
(any `RTree` flattening to it) produces that same entry, so the result
does not depend on rayon's scheduling. -/
theorem pick_image_for_pixel_first_min (pixel : Color) (tiles : List (Img × Color))
    (hne : tiles ≠ []) :
    ∃ i, ∃ hi : i < tiles.length,
      pick_image_for_pixel pixel tiles = some ((tiles.get ⟨i, hi⟩).1)
      ∧ (∀ j, ∀ hj : j < tiles.length,
          distance (tiles.get ⟨i, hi⟩).2 pixel ≤ distance (tiles.get ⟨j, hj⟩).2 pixel)
      ∧ (∀ j, ∀ hj : j < i,
          distance (tiles.get ⟨i, hi⟩).2 pixel < distance (tiles.get ⟨j, hj.trans hi⟩).2 pixel)
      ∧ (∀ tr : RTree (Img × Color), tr.flatten = tiles →
          pickPar pixel tr = (tiles.get ⟨i, hi⟩).1) := by
  obtain ⟨t, ts, rfl⟩ := List.exists_cons_of_ne_nil hne
  obtain ⟨i, hi, heq, hmin, hstrict⟩ :=
    foldl_minCombine_key_firstMin (fun e => distance e.2 pixel) ts t
  have hpick : pick_image_for_pixel pixel (t :: ts) = some (((t :: ts).get ⟨i, hi⟩).1) := by
    rw [pick_eq_of_cons, heq]
  refine ⟨i, hi, hpick, hmin, hstrict, ?_⟩
  intro tr htr
  have h := pickPar_eq_pick pixel tr
  rw [htr, hpick] at h
  exact Option.some.inj h

/-- A concrete 1 × 1 tile image used by witnesses. -/
def tile0 : Img := Img.mk 1 1 fun _ _ => Color.mk 1 2 3 4

/-- A second concrete tile image used by witnesses. -/
def tile1 : Img := Img.mk 1 1 fun _ _ => Color.mk 200 200 200 200

/-- A concrete two-entry catalog used by witnesses. -/
def catalog0 : List (Img × Color) :=
  [(tile0, Color.mk 5 6 7 8), (tile1, Color.mk 200 200 200 200)]

/-- Witness for C1 on the concrete catalog. -/
theorem pick_image_for_pixel_first_min_witness :
    ∃ i, ∃ hi : i < catalog0.length,
      pick_image_for_pixel (Color.mk 0 0 0 0) catalog0
          = some ((catalog0.get ⟨i, hi⟩).1)
      ∧ (∀ j, ∀ hj : j < catalog0.length,
          distance (catalog0.get ⟨i, hi⟩).2 (Color.mk 0 0 0 0)
            ≤ distance (catalog0.get ⟨j, hj⟩).2 (Color.mk 0 0 0 0))
      ∧ (∀ j, ∀ hj : j < i,
          distance (catalog0.get ⟨i, hi⟩).2 (Color.mk 0 0 0 0)
            < distance (catalog0.get ⟨j, hj.trans hi⟩).2 (Color.mk 0 0 0 0))
      ∧ (∀ tr : RTree (Img × Color), tr.flatten = catalog0 →
          pickPar (Color.mk 0 0 0 0) tr = (catalog0.get ⟨i, hi⟩).1) :=
  pick_image_for_pixel_first_min (Color.mk 0 0 0 0) catalog0 (by simp [catalog0])

/-! ## Distinct-color mapping and failure propagation (C6, C7) -/

lemma mem_pixelCoords (img : Img) (x y : ℕ) :
    (x, y) ∈ img.pixelCoords ↔ x < img.width ∧ y < img.height := by
  simp only [Img.pixelCoords, List.mem_flatMap, List.mem_map, List.mem_range, Prod.mk.injEq]
  constructor
  · rintro ⟨a, ha, b, hb, hbx, hay⟩
    subst hbx
    subst hay
    exact ⟨hb, ha⟩
  · rintro ⟨hx, hy⟩
    exact ⟨y, hy, x, hx, rfl, rfl⟩

lemma pix_mem_pixelsList (img : Img) (p : ℕ × ℕ) (hp : p ∈ img.pixelCoords) :
    img.pix p.1 p.2 ∈ img.pixelsList :=
  List.mem_map_of_mem _ hp

lemma pixelCoords_ne_nil (img : Img) (hW : 0 < img.width) (hH : 0 < img.height) :
    img.pixelCoords ≠ [] :=
  List.ne_nil_of_mem ((mem_pixelCoords img 0 0).mpr ⟨hW, hH⟩)

lemma pick_nil (c : Color) : pick_image_for_pixel c [] = none := rfl

lemma pick_eq_none_iff (c : Color) (tiles : List (Img × Color)) :
    pick_image_for_pixel c tiles = none ↔ tiles = [] := by
  cases tiles with
  | nil => simp [pick_nil]
  | cons t ts => simp [pick_eq_of_cons]

lemma buildMapping_nil (order : List Color) : buildMapping order [] = [] := by
  unfold buildMapping
  induction order with
  | nil => rfl
  | cons c rest ih =>
    simp only [List.filterMap_cons, pick_nil, Option.map_none']
    exact ih

lemma lookup_buildMapping (tiles : List (Img × Color)) (order : List Color) (c : Color)
    (hc : c ∈ order) :
    lookupColor (buildMapping order tiles) c = pick_image_for_pixel c tiles := by
  induction order with
  | nil => simp at hc
  | cons d rest ih =>
    by_cases hdc : d = c
    · subst hdc
      cases hpick : pick_image_for_pixel d tiles with
      | none =>
        have htiles : tiles = [] := (pick_eq_none_iff d tiles).mp hpick
        subst htiles
        rw [buildMapping_nil]
        rfl
      | some timg =>
        have hstep : buildMapping (d :: rest) tiles = (d, timg) :: buildMapping rest tiles := by
          simp [buildMapping, List.filterMap_cons, hpick]
        rw [hstep]
        simp [lookupColor]
    · have hcrest : c ∈ rest := by
        rcases List.mem_cons.mp hc with h | h
        · exact absurd h.symm hdc
        · exact h
      cases hp : pick_image_for_pixel d tiles with
      | none =>
        have hstep : buildMapping (d :: rest) tiles = buildMapping rest tiles := by
          simp [buildMapping, List.filterMap_cons, hp]
        rw [hstep]
        exact ih hcrest
      | some t2 =>
        have hstep : buildMapping (d :: rest) tiles = (d, t2) :: buildMapping rest tiles := by
          simp [buildMapping, List.filterMap_cons, hp]
        rw [hstep]
        show (if d = c then some t2 else lookupColor (buildMapping rest tiles) c) = _
        rw [if_neg hdc]
        exact ih hcrest

lemma foldlM_blit_none (img : Img) (s : ℕ) (canvas : Img) (cs : List (ℕ × ℕ))
    (hcs : cs ≠ []) :
    cs.foldlM (blitStep img [] s) canvas = none := by
  obtain ⟨p, rest, rfl⟩ := List.exists_cons_of_ne_nil hcs
  rfl

/-- C6: with an empty catalog, matching returns no result for any color
and the per-image pipeline fails (the `unwrap` on the first pixel
panics) instead of producing a mosaic, so nothing is ever saved for
that image. -/
theorem empty_catalog_fatal (img : Img) (order : List Color) (s : ℕ)
    (hW : 0 < img.width) (hH : 0 < img.height) :
    (∀ c, pick_image_for_pixel c [] = none) ∧ processImage img [] order s = none := by
  refine ⟨fun c => rfl, ?_⟩
  unfold processImage
  rw [buildMapping_nil]
  unfold composePixels
  exact foldlM_blit_none img s _ _ (pixelCoords_ne_nil img hW hH)

/-- A concrete pixel color and 1 × 1 target image used by witnesses. -/
def pixel0 : Color := Color.mk 3 4 5 6

/-- A concrete 1 × 1 target image used by witnesses. -/
def target0 : Img := Img.mk 1 1 fun _ _ => pixel0

/-- Witness for C6 on a concrete target image. -/
theorem empty_catalog_fatal_witness :
    (∀ c, pick_image_for_pixel c [] = none)
    ∧ processImage target0 [] [pixel0] 2 = none :=
  empty_catalog_fatal target0 [pixel0] 2 (by decide) (by decide)

/-- C7: given a non-empty catalog and a distinct-color list covering
every color of the image, the color → tile map has an entry for every
color appearing in the image's pixel buffer, so the per-pixel
`tiles.get(&pixel).unwrap()` of the compositor never fails. -/
theorem color_map_complete (img : Img) (tiles : List (Img × Color)) (order : List Color)
    (hne : tiles ≠ []) (hcov : ∀ c, c ∈ img.pixelsList → c ∈ order) :
    ∀ c, c ∈ img.pixelsList →
      ∃ timg, lookupColor (buildMapping order tiles) c = some timg := by
  intro c hc
  rw [lookup_buildMapping tiles order c (hcov c hc)]
  obtain ⟨t, ts, rfl⟩ := List.exists_cons_of_ne_nil hne
  exact ⟨_, pick_eq_of_cons c t ts⟩

/-- Witness for C7 on the concrete target, catalog and pixel color. -/
theorem color_map_complete_witness :
    ∃ timg, lookupColor (buildMapping [pixel0] catalog0) pixel0 = some timg :=
  color_map_complete target0 catalog0 [pixel0] (by simp [catalog0])
    (by intro c hc; exact hc) pixel0 (by decide)

/-! ## Catalog loading (C8) -/

lemma load_images_eq {ε : Type} (decode : ε → Option Img) (resize : Img → ℕ → Img)
    (side : ℕ) (entries : List ε) :
    load_images decode resize side entries
      = (entries.filterMap decode).map fun i => (resize i side, average_color (resize i side)) := by
  induction entries with
  | nil => rfl
  | cons e es ih =>
    cases hd : decode e with
    | none =>
      simp only [load_images, List.filterMap_cons, hd, Option.map_none'] at ih ⊢
      exact ih
    | some i0 =>
      simp only [load_images, List.filterMap_cons, hd, Option.map_some', List.map_cons] at ih ⊢
      exact congrArg _ ih

/-- C8: during catalog loading every file that fails to decode is
skipped silently (removing it from the entry list leaves the catalog
unchanged and never aborts the load), and the resulting catalog consists
exactly of the successfully decoded files, each resized to
`tile_side × tile_side` and paired with the representative color of its
resized buffer. -/
theorem load_images_spec {ε : Type} (decode : ε → Option Img) (resize : Img → ℕ → Img)
    (side : ℕ)
    (hres : ∀ i, (resize i side).width = side ∧ (resize i side).height = side) :
    (∀ (pre post : List ε) (bad : ε), decode bad = none →
        load_images decode resize side (pre ++ bad :: post)
          = load_images decode resize side (pre ++ post))
    ∧ (∀ entries : List ε,
        load_images decode resize side entries
          = (entries.filterMap decode).map fun i => (resize i side, average_color (resize i side)))
    ∧ (∀ entries : List ε, ∀ t, t ∈ load_images decode resize side entries →
        t.1.width = side ∧ t.1.height = side ∧ t.2 = average_color t.1) := by
  refine ⟨?_, load_images_eq decode resize side, ?_⟩
  · intro pre post bad hbad
    rw [load_images_eq, load_images_eq]
    have h : (pre ++ bad :: post).filterMap decode = (pre ++ post).filterMap decode := by
      rw [List.filterMap_append, List.filterMap_append, List.filterMap_cons, hbad]
    rw [h]
  · intro entries t ht
    rw [load_images_eq] at ht
    obtain ⟨i0, hmem, rfl⟩ := List.mem_map.mp ht
    exact ⟨(hres i0).1, (hres i0).2, rfl⟩

/-- A concrete decode collaborator used by witnesses: entry `0` fails
to decode, entry `n + 1` decodes to an `(n+1) × (n+1)` image. -/
def decode0 : ℕ → Option Img :=
  fun n => if n = 0 then none else some (Img.mk n n fun _ _ => Color.mk 1 1 1 1)

/-- A concrete exact-fit resize collaborator used by witnesses. -/
def resize0 : Img → ℕ → Img :=
  fun _ s => Img.mk s s fun _ _ => Color.mk 2 2 2 2

/-- Witness for C8 with the concrete collaborators. -/
theorem load_images_spec_witness :
    (∀ (pre post : List ℕ) (bad : ℕ), decode0 bad = none →
        load_images decode0 resize0 3 (pre ++ bad :: post)
          = load_images decode0 resize0 3 (pre ++ post))
    ∧ (∀ entries : List ℕ,
        load_images decode0 resize0 3 entries
          = (entries.filterMap decode0).map fun i => (resize0 i 3, average_color (resize0 i 3)))
    ∧ (∀ entries : List ℕ, ∀ t, t ∈ load_images decode0 resize0 3 entries →
        t.1.width = 3 ∧ t.1.height = 3 ∧ t.2 = average_color t.1) :=
  load_images_spec decode0 resize0 3 (fun _ => ⟨rfl, rfl⟩)

/-! ## The compositor (C9) -/

lemma cell_disjoint (s x dx q : ℕ) (hdx : dx < s) (hne : q ≠ x) :
    ¬ (q * s ≤ x * s + dx ∧ x * s + dx < q * s + s) := by
  rintro ⟨h1, h2⟩
  rcases Nat.lt_or_ge q x with h | h
  · have hle : (q + 1) * s ≤ x * s := Nat.mul_le_mul_right s h
    have he : (q + 1) * s = q * s + s := by ring
    have hxle : x * s ≤ x * s + dx := Nat.le_add_right _ _
    linarith
  · have hx : x < q := lt_of_le_of_ne h (fun he => hne he.symm)
    have hle : (x + 1) * s ≤ q * s := Nat.mul_le_mul_right s hx
    have he : (x + 1) * s = x * s + s := by ring
    linarith

/-- Invariant of the blit loop: the fold succeeds, preserves the canvas
dimensions, fills every visited cell with its matched tile's buffer and
leaves unvisited cells untouched. -/
lemma blit_fold_spec (img : Img) (mapping : List (Color × Img)) (s : ℕ)
    (ht : ∀ c t, lookupColor mapping c = some t → t.width = s ∧ t.height = s) :
    ∀ (cs : List (ℕ × ℕ)) (canvas : Img),
      canvas.width = img.width * s → canvas.height = img.height * s →
      (∀ p, p ∈ cs → p.1 < img.width ∧ p.2 < img.height) →
      (∀ p, p ∈ cs → ∃ t, lookupColor mapping (img.pix p.1 p.2) = some t) →
      ∃ canvas2, cs.foldlM (blitStep img mapping s) canvas = some canvas2
        ∧ canvas2.width = canvas.width ∧ canvas2.height = canvas.height
        ∧ (∀ x y dx dy, dx < s → dy < s →
            (((x, y) ∈ cs → ∀ t, lookupColor mapping (img.pix x y) = some t →
                canvas2.pix (x * s + dx) (y * s + dy) = t.pix dx dy)
            ∧ ((x, y) ∉ cs →
                canvas2.pix (x * s + dx) (y * s + dy)
                  = canvas.pix (x * s + dx) (y * s + dy)))) := by
  intro cs
  induction cs with
  | nil =>
    intro canvas hw hh _ _
    exact ⟨canvas, rfl, rfl, rfl, fun x y dx dy _ _ =>
      ⟨fun hmem => absurd hmem (List.not_mem_nil _), fun _ => rfl⟩⟩
  | cons p cs' ih =>
    intro canvas hw hh hrange hcov
    obtain ⟨tile, hp⟩ := hcov p (List.mem_cons_self p cs')
    obtain ⟨htw, hth⟩ := ht _ _ hp
    obtain ⟨hpx, hpy⟩ := hrange p (List.mem_cons_self p cs')
    have hb1 : p.1 * s + tile.width ≤ canvas.width := by
      rw [htw, hw]
      have hle : (p.1 + 1) * s ≤ img.width * s := Nat.mul_le_mul_right s hpx
      have he : (p.1 + 1) * s = p.1 * s + s := by ring
      linarith
    have hb2 : p.2 * s + tile.height ≤ canvas.height := by
      rw [hth, hh]
      have hle : (p.2 + 1) * s ≤ img.height * s := Nat.mul_le_mul_right s hpy
      have he : (p.2 + 1) * s = p.2 * s + s := by ring
      linarith
    have hcopy : copy_from canvas tile (p.1 * s) (p.2 * s)
        = some { width := canvas.width, height := canvas.height,
                 pix := fun X Y =>
                   if p.1 * s ≤ X ∧ X < p.1 * s + tile.width
                       ∧ p.2 * s ≤ Y ∧ Y < p.2 * s + tile.height then
                     tile.pix (X - p.1 * s) (Y - p.2 * s)
                   else canvas.pix X Y } := by
      unfold copy_from
      rw [if_pos ⟨hb1, hb2⟩]
    have hstep : (p :: cs').foldlM (blitStep img mapping s) canvas
        = cs'.foldlM (blitStep img mapping s)
            { width := canvas.width, height := canvas.height,
              pix := fun X Y =>
                if p.1 * s ≤ X ∧ X < p.1 * s + tile.width
                    ∧ p.2 * s ≤ Y ∧ Y < p.2 * s + tile.height then
                  tile.pix (X - p.1 * s) (Y - p.2 * s)
                else canvas.pix X Y } := by
      rw [List.foldlM_cons]
      unfold blitStep
      simp only [hp]
      rw [hcopy]
      rfl
    obtain ⟨canvas2, hfold, hw2, hh2, hpix2⟩ := ih
      { width := canvas.width, height := canvas.height,
        pix := fun X Y =>
          if p.1 * s ≤ X ∧ X < p.1 * s + tile.width
              ∧ p.2 * s ≤ Y ∧ Y < p.2 * s + tile.height then
            tile.pix (X - p.1 * s) (Y - p.2 * s)
          else canvas.pix X Y }
      hw hh (fun q hq => hrange q (List.mem_cons_of_mem p hq))
      (fun q hq => hcov q (List.mem_cons_of_mem p hq))
    refine ⟨canvas2, by rw [hstep]; exact hfold, hw2, hh2, ?_⟩
    intro x y dx dy hdx hdy
    constructor
    · intro hmem t hlook
      by_cases hin : (x, y) ∈ cs'
      · exact (hpix2 x y dx dy hdx hdy).1 hin t hlook
      · have hpxy : p = (x, y) := by
          rcases List.mem_cons.mp hmem with h | h
          · exact h.symm
          · exact absurd h hin
        have h1 : p.1 = x := by rw [hpxy]
        have h2 : p.2 = y := by rw [hpxy]
        have hp2 : lookupColor mapping (img.pix x y) = some tile := by
          rw [← h1, ← h2]
          exact hp
        have hteq : tile = t := Option.some.inj (hp2.symm.trans hlook)
        have hc2 := (hpix2 x y dx dy hdx hdy).2 hin
        rw [hc2]
        show (if p.1 * s ≤ x * s + dx ∧ x * s + dx < p.1 * s + tile.width
            ∧ p.2 * s ≤ y * s + dy ∧ y * s + dy < p.2 * s + tile.height then
          tile.pix (x * s + dx - p.1 * s) (y * s + dy - p.2 * s)
        else canvas.pix (x * s + dx) (y * s + dy)) = t.pix dx dy
        rw [← hteq, h1, h2, htw, hth]
        have hcond : x * s ≤ x * s + dx ∧ x * s + dx < x * s + s
            ∧ y * s ≤ y * s + dy ∧ y * s + dy < y * s + s :=
          ⟨Nat.le_add_right _ _, by omega, Nat.le_add_right _ _, by omega⟩
        rw [if_pos hcond]
        congr 1 <;> omega
    · intro hmem
      have hin : (x, y) ∉ cs' := fun h => hmem (List.mem_cons_of_mem p h)
      have hne : p ≠ (x, y) := fun h => hmem (h ▸ List.mem_cons_self p cs')
      have hc2 := (hpix2 x y dx dy hdx hdy).2 hin
      rw [hc2]
      show (if p.1 * s ≤ x * s + dx ∧ x * s + dx < p.1 * s + tile.width
          ∧ p.2 * s ≤ y * s + dy ∧ y * s + dy < p.2 * s + tile.height then
        tile.pix (x * s + dx - p.1 * s) (y * s + dy - p.2 * s)
      else canvas.pix (x * s + dx) (y * s + dy)) = canvas.pix (x * s + dx) (y * s + dy)
      have hsplit : p.1 ≠ x ∨ p.2 ≠ y := by
        by_contra hcon
        push_neg at hcon
        exact hne (Prod.ext hcon.1 hcon.2)
      have hcond : ¬ (p.1 * s ≤ x * s + dx ∧ x * s + dx < p.1 * s + tile.width
          ∧ p.2 * s ≤ y * s + dy ∧ y * s + dy < p.2 * s + tile.height) := by
        rw [htw, hth]
        rintro ⟨h1, h2, h3, h4⟩
        rcases hsplit with h | h
        · exact cell_disjoint s x dx p.1 hdx h ⟨h1, h2⟩
        · exact cell_disjoint s y dy p.2 hdy h ⟨h3, h4⟩
      rw [if_neg hcond]

/-- C9: the compositor allocates a canvas of exactly
`(img.width · s) × (img.height · s)` pixels and, for every source pixel
coordinate `(x, y)`, copies the matched tile's full pixel buffer
verbatim into the canvas region at offset `(x · s, y · s)`. -/
theorem compositor_correct (img : Img) (mapping : List (Color × Img)) (s : ℕ)
    (ht : ∀ c t, lookupColor mapping c = some t → t.width = s ∧ t.height = s)
    (hcov : ∀ c, c ∈ img.pixelsList → ∃ t, lookupColor mapping c = some t) :
    ∃ canvas, composePixels img mapping s = some canvas
      ∧ canvas.width = img.width * s ∧ canvas.height = img.height * s
      ∧ ∀ x y dx dy, x < img.width → y < img.height → dx < s → dy < s →
          ∀ t, lookupColor mapping (img.pix x y) = some t →
            canvas.pix (x * s + dx) (y * s + dy) = t.pix dx dy := by
  obtain ⟨canvas2, hfold, hw, hh, hpix⟩ :=
    blit_fold_spec img mapping s ht img.pixelCoords
      { width := img.width * s, height := img.height * s,
        pix := fun _ _ => Color.mk 0 0 0 0 }
      rfl rfl
      (by
        intro p hp
        rcases p with ⟨x, y⟩
        exact (mem_pixelCoords img x y).mp hp)
      (fun p hp => hcov _ (pix_mem_pixelsList img p hp))
  refine ⟨canvas2, hfold, hw, hh, ?_⟩
  intro x y dx dy hx hy hdx hdy t hlook
  exact (hpix x y dx dy hdx hdy).1 ((mem_pixelCoords img x y).mpr ⟨hx, hy⟩) t hlook

/-- Witness for C9 on the concrete 1 × 1 target with a 1 × 1 tile. -/
theorem compositor_correct_witness :
    ∃ canvas, composePixels target0 [(pixel0, tile0)] 1 = some canvas
      ∧ canvas.width = target0.width * 1 ∧ canvas.height = target0.height * 1
      ∧ ∀ x y dx dy, x < target0.width → y < target0.height → dx < 1 → dy < 1 →
          ∀ t, lookupColor [(pixel0, tile0)] (target0.pix x y) = some t →
            canvas.pix (x * 1 + dx) (y * 1 + dy) = t.pix dx dy :=
  compositor_correct target0 [(pixel0, tile0)] 1
    (by
      intro c t h
      by_cases hc : pixel0 = c
      · have h' : some tile0 = some t := by
          rw [← h]
          show some tile0 = if pixel0 = c then some tile0 else lookupColor [] c
          rw [if_pos hc]
        cases Option.some.inj h'
        exact ⟨rfl, rfl⟩
      · have h' : (none : Option Img) = some t := by
          rw [← h]
          show (none : Option Img) = if pixel0 = c then some tile0 else lookupColor [] c
          rw [if_neg hc]
          rfl
        exact absurd h'.symm (by simp))
    (by
      intro c hc
      have hcp : c = pixel0 := by
        have : c ∈ [pixel0] := hc
        simpa using this
      subst hcp
      exact ⟨tile0, by simp [lookupColor]⟩)

/-! ## End-to-end determinism (C2) -/

/-- The composition loop depends on the color → tile map only through
lookups at colors that occur in the image. -/
lemma composePixels_congr (img : Img) (m1 m2 : List (Color × Img)) (s : ℕ)
    (h : ∀ c, c ∈ img.pixelsList → lookupColor m1 c = lookupColor m2 c) :
    composePixels img m1 s = composePixels img m2 s := by
  unfold composePixels
  have hgen : ∀ (cs : List (ℕ × ℕ)) (canvas : Img),
      (∀ p, p ∈ cs → lookupColor m1 (img.pix p.1 p.2) = lookupColor m2 (img.pix p.1 p.2)) →
      cs.foldlM (blitStep img m1 s) canvas = cs.foldlM (blitStep img m2 s) canvas := by
    intro cs
    induction cs with
    | nil =>
      intro canvas _
      rfl
    | cons p cs' ih =>
      intro canvas hcs
      rw [List.foldlM_cons, List.foldlM_cons]
      have hp := hcs p (List.mem_cons_self p cs')
      show (blitStep img m1 s canvas p) >>= _ = (blitStep img m2 s canvas p) >>= _
      unfold blitStep
      rw [hp]
      cases hlook : lookupColor m2 (img.pix p.1 p.2) with
      | none => rfl
      | some tile =>
        show (copy_from canvas tile (p.1 * s) (p.2 * s)) >>=
            (fun c => cs'.foldlM (blitStep img m1 s) c)
          = (copy_from canvas tile (p.1 * s) (p.2 * s)) >>=
            (fun c => cs'.foldlM (blitStep img m2 s) c)
        cases hc : copy_from canvas tile (p.1 * s) (p.2 * s) with
        | none => rfl
        | some canvas1 =>
          show cs'.foldlM (blitStep img m1 s) canvas1 = cs'.foldlM (blitStep img m2 s) canvas1
          exact ih canvas1 (fun q hq => hcs q (List.mem_cons_of_mem p hq))
  exact hgen img.pixelCoords _ (fun p hp => h _ (pix_mem_pixelsList img p hp))

/-- The map built by the parallel matcher under any schedule equals the
map built by the sequential matcher. -/
lemma buildMappingPar_eq (order : List Color) (tiles : List (Img × Color))
    (σ : Color → RTree (Img × Color)) (hσ : ∀ c, (σ c).flatten = tiles) :
    (order.map fun c => (c, pickPar c (σ c))) = buildMapping order tiles := by
  induction order with
  | nil => rfl
  | cons c rest ih =>
    have h := pickPar_eq_pick c (σ c)
    rw [hσ c] at h
    have hb : buildMapping (c :: rest) tiles
        = (c, pickPar c (σ c)) :: buildMapping rest tiles := by
      unfold buildMapping
      rw [List.filterMap_cons, ← h]
      rfl
    rw [List.map_cons, hb, ih]

/-- C2: for a fixed catalog and target image, the pipeline
(distinct-color reduction, matching, composition) produces the same
canvas for any two hash-set iteration orders of the distinct colors and
any two parallel reduction schedules of the per-color matching. -/
theorem pipeline_deterministic (img : Img) (tiles : List (Img × Color)) (s : ℕ)
    (o1 o2 : List Color)
    (ho1 : ∀ c, c ∈ o1 ↔ c ∈ img.pixelsList) (ho2 : ∀ c, c ∈ o2 ↔ c ∈ img.pixelsList)
    (σ1 σ2 : Color → RTree (Img × Color))
    (hσ1 : ∀ c, (σ1 c).flatten = tiles) (hσ2 : ∀ c, (σ2 c).flatten = tiles) :
    processImagePar img σ1 o1 s = processImagePar img σ2 o2 s := by
  unfold processImagePar
  rw [buildMappingPar_eq o1 tiles σ1 hσ1, buildMappingPar_eq o2 tiles σ2 hσ2]
  apply composePixels_congr
  intro c hc
  rw [lookup_buildMapping tiles o1 c ((ho1 c).mpr hc),
    lookup_buildMapping tiles o2 c ((ho2 c).mpr hc)]

/-- A concrete three-entry catalog used by the C2 witness. -/
def catalog1 : List (Img × Color) :=
  [(tile0, Color.mk 5 6 7 8), (tile1, Color.mk 200 200 200 200), (tile0, Color.mk 9 9 9 9)]

/-- Witness for C2: a left-leaning and a right-leaning reduction
schedule over the three-tile catalog on the concrete target image. -/
theorem pipeline_deterministic_witness :
    processImagePar target0
        (fun _ => RTree.node
          (RTree.node (RTree.leaf (tile0, Color.mk 5 6 7 8))
            (RTree.leaf (tile1, Color.mk 200 200 200 200)))
          (RTree.leaf (tile0, Color.mk 9 9 9 9))) [pixel0] 2
      = processImagePar target0
        (fun _ => RTree.node (RTree.leaf (tile0, Color.mk 5 6 7 8))
          (RTree.node (RTree.leaf (tile1, Color.mk 200 200 200 200))
            (RTree.leaf (tile0, Color.mk 9 9 9 9)))) [pixel0] 2 :=
  pipeline_deterministic target0 catalog1 2 [pixel0] [pixel0]
    (fun _ => Iff.rfl) (fun _ => Iff.rfl)
    (fun _ => RTree.node
      (RTree.node (RTree.leaf (tile0, Color.mk 5 6 7 8))
        (RTree.leaf (tile1, Color.mk 200 200 200 200)))
      (RTree.leaf (tile0, Color.mk 9 9 9 9)))
    (fun _ => RTree.node (RTree.leaf (tile0, Color.mk 5 6 7 8))
      (RTree.node (RTree.leaf (tile1, Color.mk 200 200 200 200))
        (RTree.leaf (tile0, Color.mk 9 9 9 9))))
    (fun _ => rfl) (fun _ => rfl)
